import Mathlib

/-!
# Verification of `ipxe/generate_archlinux_ipxe.py`

A shallow embedding of the mirror/release fetching, grouping and rendering
pipeline of `generate_archlinux_ipxe.py`, together with theorems settling the
specification's claims about it.

Modelling conventions:
* The JSON documents returned by the two endpoints are embedded as structures
  (`ReleasesDoc`, `MirrorsDoc`) whose fields are exactly the JSON fields the
  script reads.
* Python's `sorted` is a stable sort with respect to a total preorder on the
  sort key.  A stable sort of a list with respect to a total preorder is
  unique, so we embed it as `List.insertionSort` (Mathlib's insertion sort is
  stable and sorted — `List.sublist_insertionSort`, `List.sorted_insertionSort`),
  which is structurally recursive and hence evaluates on concrete inputs.
* `details.rsplit('/', 3)` (split from the right, at most 3 splits, so at most
  4 parts) is embedded as `rsplitSlash3`, built from an explicit character
  level splitter.
* Python list indexing `xs[1]` raises `IndexError` when out of range; the
  embedding returns `Option` and the whole mirror retrieval is `Option`-valued.
* The insertion-ordered Python `dict` used by `sort_mirrors_by_country` is
  embedded as an association list of `CountryGroup`s in insertion order
  (`addToGroups` updates the unique group with a matching key, or appends a
  fresh group at the end, exactly as `dict` assignment does).
-/

namespace ArchIpxe

/-! ## Data model -/

/-- One element of the `releases` array of the releases endpoint
(`https://archlinux.org/releng/releases/json/`), restricted to the fields the
script reads. -/
structure Release where
  version : String
  release_date : String
  available : Bool
deriving DecidableEq, Repr

/-- The JSON document of the releases endpoint. -/
structure ReleasesDoc where
  releases : List Release
deriving DecidableEq, Repr

/-- One element of the `urls` array of the mirror status endpoint
(`https://archlinux.org/mirrors/status/json`), restricted to the fields the
script reads. -/
structure MirrorEntry where
  protocol : String
  active : Bool
  isos : Bool
  url : String
  details : String
  country_code : String
  country : String
deriving DecidableEq, Repr

/-- The JSON document of the mirror status endpoint. -/
structure MirrorsDoc where
  urls : List MirrorEntry
deriving DecidableEq, Repr

/-- The `Mirror` namedtuple built in `retrieve_mirrors`:
`mirrorObj(mirror["url"], mirror["details"].rsplit('/',3)[1],
mirror["country_code"], mirror["country"])`. -/
structure Mirror where
  url : String
  name : String
  country_code : String
  country : String
deriving DecidableEq, Repr

/-- The `{"url": ..., "name": ...}` dictionaries appended to a country group's
`list` in `sort_mirrors_by_country`. -/
structure GroupEntry where
  url : String
  name : String
deriving DecidableEq, Repr

/-- The `{"grouper": ..., "grouper_name": ..., "list": [...]}` dictionaries
that are the values of the `mirrors_by_country` dict. -/
structure CountryGroup where
  grouper : String
  grouper_name : String
  list : List GroupEntry
deriving DecidableEq, Repr

/-! ## `str.rsplit('/', 3)` -/

/-- Split a list of characters at every `'/'` (the full split underlying
Python's `str.split('/')` / `str.rsplit('/')`: with a one-character separator
and no limit the two agree). -/
def splitOnSlash : List Char → List (List Char)
  | [] => [[]]
  | c :: rest =>
    let r := splitOnSlash rest
    if c = '/' then [] :: r
    else
      match r with
      | [] => [[c]]
      | g :: gs => (c :: g) :: gs

/-- Concatenate parts back with `'/'` separators (inverse of the split on the
retained head part). -/
def joinSlash : List String → String
  | [] => ""
  | [a] => a
  | a :: rest => a ++ "/" ++ joinSlash rest

/-- Python's `s.rsplit('/', 3)`: split `s` on `'/'` from the right into at
most 4 parts.  Equivalently: fully split, and if there are more than 4 parts,
re-join all but the last 3 into the leading part. -/
def rsplitSlash3 (s : String) : List String :=
  let ps := (splitOnSlash s.toList).map (fun cs => String.mk cs)
  if ps.length ≤ 4 then ps
  else joinSlash (ps.take (ps.length - 3)) :: ps.drop (ps.length - 3)

/-! ## String comparison

Python compares strings lexicographically by code points.  `charListLe` is
that comparison on the underlying character lists; `strLe` is the induced
total preorder (indeed a linear order) on `String` used by all three
`sorted(...)` calls of the script. -/

/-- Code-point lexicographic `≤` on character lists. -/
def charListLe : List Char → List Char → Bool
  | [], _ => true
  | _ :: _, [] => false
  | a :: as, b :: bs =>
    if a < b then true
    else if b < a then false
    else charListLe as bs

theorem charListLe_refl : ∀ as, charListLe as as = true
  | [] => rfl
  | a :: as => by simp [charListLe, lt_irrefl, charListLe_refl as]

theorem charListLe_total : ∀ as bs, charListLe as bs = true ∨ charListLe bs as = true
  | [], _ => Or.inl rfl
  | _ :: _, [] => Or.inr rfl
  | a :: as, b :: bs => by
    rcases lt_trichotomy a b with h | h | h
    · exact Or.inl (by simp [charListLe, h])
    · subst h
      rcases charListLe_total as bs with h' | h' <;>
        [exact Or.inl (by simp [charListLe, lt_irrefl, h']);
         exact Or.inr (by simp [charListLe, lt_irrefl, h'])]
    · exact Or.inr (by simp [charListLe, h])

theorem charListLe_trans : ∀ as bs cs, charListLe as bs = true → charListLe bs cs = true →
    charListLe as cs = true
  | [], _, _, _, _ => rfl
  | a :: as, [], cs, h, _ => by simp [charListLe] at h
  | a :: as, b :: bs, [], _, h' => by simp [charListLe] at h'
  | a :: as, b :: bs, c :: cs, h, h' => by
    by_cases hab : a < b
    · by_cases hbc : b < c
      · simp [charListLe, lt_trans hab hbc]
      · by_cases hcb : c < b
        · simp [charListLe, hbc, hcb] at h'
        · have : b = c := le_antisymm (not_lt.mp hcb) (not_lt.mp hbc)
          subst this
          simp [charListLe, hab]
    · by_cases hba : b < a
      · simp [charListLe, hab, hba] at h
      · have : a = b := le_antisymm (not_lt.mp hba) (not_lt.mp hab)
        subst this
        by_cases hbc : a < c
        · simp [charListLe, hbc]
        · by_cases hcb : c < a
          · simp [charListLe, hbc, hcb] at h'
          · have : a = c := le_antisymm (not_lt.mp hcb) (not_lt.mp hbc)
            subst this
            simp [charListLe, lt_irrefl] at h h' ⊢
            exact charListLe_trans as bs cs h h'

theorem charListLe_antisymm : ∀ as bs, charListLe as bs = true → charListLe bs as = true →
    as = bs
  | [], [], _, _ => rfl
  | [], _ :: _, _, h' => by simp [charListLe] at h'
  | _ :: _, [], h, _ => by simp [charListLe] at h
  | a :: as, b :: bs, h, h' => by
    by_cases hab : a < b
    · simp [charListLe, hab, lt_asymm hab] at h'
    · by_cases hba : b < a
      · simp [charListLe, hab, hba] at h
      · have : a = b := le_antisymm (not_lt.mp hba) (not_lt.mp hab)
        subst this
        simp [charListLe, lt_irrefl] at h h'
        rw [charListLe_antisymm as bs h h']

/-- Python's `≤` on strings: code-point lexicographic comparison. -/
def strLe (a b : String) : Prop := charListLe a.toList b.toList = true

instance : DecidableRel strLe := fun a b =>
  inferInstanceAs (Decidable (charListLe a.toList b.toList = true))

theorem strLe_refl (a : String) : strLe a a := charListLe_refl _

theorem strLe_total (a b : String) : strLe a b ∨ strLe b a := charListLe_total _ _

theorem strLe_trans {a b c : String} (h : strLe a b) (h' : strLe b c) : strLe a c :=
  charListLe_trans _ _ _ h h'

theorem strLe_antisymm {a b : String} (h : strLe a b) (h' : strLe b a) : a = b := by
  have hd : a.toList = b.toList := charListLe_antisymm _ _ h h'
  cases a
  cases b
  exact congrArg String.mk hd

/-- Python's strict `<` on strings. -/
def strLt (a b : String) : Prop := strLe a b ∧ a ≠ b

/-! ## Release fetching (`retrieve_releases`) -/

/-- The comparison used by
`sorted(data["releases"], key=itemgetter('release_date'), reverse=True)`:
`a` may precede `b` iff `b`'s release date is at most `a`'s (descending).
Python's `sorted(..., reverse=True)` is a stable sort with respect to this
reversed comparison. -/
def releaseDesc (a b : Release) : Prop := strLe b.release_date a.release_date

instance : DecidableRel releaseDesc :=
  fun a b => inferInstanceAs (Decidable (strLe b.release_date a.release_date))

instance : IsTotal Release releaseDesc := ⟨fun a b => (strLe_total b.release_date a.release_date)⟩

instance : IsTrans Release releaseDesc := ⟨fun _ _ _ h h' => strLe_trans h' h⟩

/-- The function `retrieve_releases`, applied to an already-fetched and parsed document:
sort all releases by `release_date` descending (stably), keep the available
ones, and return their `version` fields in that order. -/
def retrieveReleases (doc : ReleasesDoc) : List String :=
  let sorted := doc.releases.insertionSort releaseDesc
  (sorted.filter (·.available)).map (·.version)

/-! ## Mirror fetching (`retrieve_mirrors`) -/

/-- The filter of the mirror loop:
`mirror["protocol"] == "http" and mirror["active"] and mirror["isos"]`. -/
def includedEntry (e : MirrorEntry) : Bool :=
  e.protocol == "http" && e.active && e.isos

/-- Build the `Mirror` namedtuple from an entry.  `rsplit('/',3)[1]` raises
`IndexError` when the split has fewer than two parts, hence the `Option`. -/
def mirrorOfEntry (e : MirrorEntry) : Option Mirror :=
  ((rsplitSlash3 e.details)[1]?).map
    (fun n => ⟨e.url, n, e.country_code, e.country⟩)

/-- The `for mirror in data["urls"]` loop of `retrieve_mirrors`: keep the
entries passing `includedEntry`, build a `Mirror` from each, in order.
A `none` models the loop raising `IndexError` on some included entry. -/
def mirrorsOfEntries : List MirrorEntry → Option (List Mirror)
  | [] => some []
  | e :: es =>
    if includedEntry e then
      match mirrorOfEntry e, mirrorsOfEntries es with
      | some m, some ms => some (m :: ms)
      | _, _ => none
    else mirrorsOfEntries es

/-- Name order on mirrors: `sorted(mirrorurls, key=lambda x: x.name)`. -/
def mirrorNameLe (a b : Mirror) : Prop := strLe a.name b.name

instance : DecidableRel mirrorNameLe :=
  fun a b => inferInstanceAs (Decidable (strLe a.name b.name))

instance : IsTotal Mirror mirrorNameLe := ⟨fun a b => strLe_total a.name b.name⟩

instance : IsTrans Mirror mirrorNameLe := ⟨fun _ _ _ h h' => strLe_trans h h'⟩

/-- Country order on mirrors: `sorted(mirrorurls, key=lambda x: x.country)`. -/
def mirrorCountryLe (a b : Mirror) : Prop := strLe a.country b.country

instance : DecidableRel mirrorCountryLe :=
  fun a b => inferInstanceAs (Decidable (strLe a.country b.country))

instance : IsTotal Mirror mirrorCountryLe := ⟨fun a b => strLe_total a.country b.country⟩

instance : IsTrans Mirror mirrorCountryLe := ⟨fun _ _ _ h h' => strLe_trans h h'⟩

/-- The two successive stable sorts of `retrieve_mirrors`: by `name`
ascending, then by `country` ascending. -/
def sortMirrorList (ms : List Mirror) : List Mirror :=
  (ms.insertionSort mirrorNameLe).insertionSort mirrorCountryLe

/-- The function `retrieve_mirrors`, applied to an already-fetched and parsed document. -/
def retrieveMirrors (doc : MirrorsDoc) : Option (List Mirror) :=
  (mirrorsOfEntries doc.urls).map sortMirrorList

/-! ## Grouping (`sort_mirrors_by_country`) -/

/-- The group entry `{"url": mirror.url, "name": mirror.name}`. -/
def mkEntry (m : Mirror) : GroupEntry := ⟨m.url, m.name⟩

/-- One iteration of the `for mirror in mirrorurls` loop, acting on the
insertion-ordered dict (represented as a list of groups in insertion order):
if a group for `m.country_code` exists, append the entry to its `list`
(country codes are unique in the accumulator, so updating the first match is
dict assignment); otherwise create the group at the end with `grouper` and
`grouper_name` taken from `m`. -/
def addToGroups (gs : List CountryGroup) (m : Mirror) : List CountryGroup :=
  match gs with
  | [] => [⟨m.country_code, m.country, [mkEntry m]⟩]
  | g :: rest =>
    if g.grouper = m.country_code then
      { g with list := g.list ++ [mkEntry m] } :: rest
    else
      g :: addToGroups rest m

/-- The function `sort_mirrors_by_country`: fold the mirror list into the
insertion-ordered dict and return its values in insertion order. -/
def sortMirrorsByCountry (ms : List Mirror) : List CountryGroup :=
  ms.foldl addToGroups []

/-- First-occurrence order of the values of a list of keys: the order in which
a Python dict indexed by these keys acquires its keys. -/
def firstOccurs (l : List String) : List String :=
  l.foldl (fun acc c => if c ∈ acc then acc else acc ++ [c]) []

/-! ## The run as a whole (`main` / `render_from_jinja_template`)

The script's `main` fetches both documents, groups the mirrors, loads the
Jinja template from the script's directory, renders it with the bindings
`mirrors_by_country` and `releases`, and `print`s the rendered text — a single
write to standard output that happens only after rendering has completed.
Any uncaught exception on the way (network, JSON parsing, `IndexError`,
missing template, rendering error) terminates the process with a non-zero
exit status before that `print`. -/

/-- Modelled from the spec: the template file loaded by
`render_from_jinja_template` (the Jinja engine itself is an external library;
only its success/failure interface matters here). -/
structure Template where
  src : String
deriving DecidableEq, Repr

/-- The environment of one run: the outcome of each effectful step that the
script does not itself compute — the two HTTP fetch/parse results, the
template load, and the Jinja `render` call (a function of the template and the
two bindings). -/
structure RunInputs where
  releasesResult : Except String ReleasesDoc
  mirrorsResult : Except String MirrorsDoc
  templateResult : Except String Template
  renderResult : Template → List CountryGroup → List String → Except String String

/-- The function `retrieve_mirrors` with the `IndexError` surfaced as an exception, as in
Python. -/
def retrieveMirrorsE (doc : MirrorsDoc) : Except String (List Mirror) :=
  match retrieveMirrors doc with
  | some ms => Except.ok ms
  | none => Except.error "IndexError"

/-- The function `main`: fetch releases, fetch mirrors, group, load the template, render.
The returned `String` is the text passed to `print`; any `Except.error` models
an uncaught Python exception aborting the run. -/
def runMain (i : RunInputs) : Except String String :=
  match i.releasesResult with
  | Except.error e => Except.error e
  | Except.ok rdoc =>
    match i.mirrorsResult with
    | Except.error e => Except.error e
    | Except.ok mdoc =>
      match retrieveMirrorsE mdoc with
      | Except.error e => Except.error e
      | Except.ok ms =>
        match i.templateResult with
        | Except.error e => Except.error e
        | Except.ok tmpl =>
          i.renderResult tmpl (sortMirrorsByCountry ms) (retrieveReleases rdoc)

/-- Everything the run writes to standard output: the single `print` of the
rendered text on success, nothing on failure (the `print` is after the last
fallible step). -/
def stdoutOf (i : RunInputs) : List String :=
  match runMain i with
  | Except.ok s => [s]
  | Except.error _ => []

/-- The process exit status: `0` on success, `1` for an uncaught exception. -/
def exitCodeOf (i : RunInputs) : Nat :=
  match runMain i with
  | Except.ok _ => 0
  | Except.error _ => 1

/-! ## Helper lemmas: two stable sorts give a lexicographic order -/

section LexStability

variable {α : Type} (c n : α → α → Prop) [DecidableRel c]

/-- Inserting `a` into a list `s` that is pairwise lexicographically ordered
(`c`, with ties refined by `n`) keeps that order, provided `a` is `n`-below
everything in `s`. -/
theorem pairwise_lex_orderedInsert
    (ctot : ∀ x y, c x y ∨ c y x) (ctrans : ∀ x y z, c x y → c y z → c x z) (a : α) :
    ∀ s : List α, s.Pairwise (fun x y => c x y ∧ (c y x → n x y)) →
      (∀ b ∈ s, n a b) →
      (List.orderedInsert c a s).Pairwise (fun x y => c x y ∧ (c y x → n x y))
  | [], _, _ => List.pairwise_singleton _ a
  | b :: t, hs, ha => by
    simp only [List.orderedInsert]
    by_cases hab : c a b
    · rw [if_pos hab]
      refine List.pairwise_cons.mpr ⟨?_, hs⟩
      intro y hy
      rcases List.mem_cons.mp hy with rfl | hyt
      · exact ⟨hab, fun _ => ha _ (List.mem_cons_self _ _)⟩
      · have hby := (List.pairwise_cons.mp hs).1 y hyt
        exact ⟨ctrans _ _ _ hab hby.1, fun _ => ha _ (List.mem_cons.mpr (Or.inr hyt))⟩
    · rw [if_neg hab]
      have hba : c b a := (ctot a b).resolve_left hab
      refine List.pairwise_cons.mpr ⟨?_, ?_⟩
      · intro y hy
        rcases (List.mem_orderedInsert c).mp hy with rfl | hyt
        · exact ⟨hba, fun hab' => absurd hab' hab⟩
        · exact (List.pairwise_cons.mp hs).1 y hyt
      · exact pairwise_lex_orderedInsert ctot ctrans a t (List.pairwise_cons.mp hs).2
          (fun b' hb' => ha _ (List.mem_cons.mpr (Or.inr hb')))

/-- Stably re-sorting an `n`-sorted list by `c` yields a list sorted
lexicographically: by `c`, and by `n` among `c`-ties. -/
theorem pairwise_lex_insertionSort
    (ctot : ∀ x y, c x y ∨ c y x) (ctrans : ∀ x y z, c x y → c y z → c x z) :
    ∀ l : List α, l.Pairwise n →
      (l.insertionSort c).Pairwise (fun x y => c x y ∧ (c y x → n x y))
  | [], _ => by simp
  | a :: l, h => by
    rw [List.insertionSort]
    exact pairwise_lex_orderedInsert c n ctot ctrans a _
      (pairwise_lex_insertionSort ctot ctrans l (List.pairwise_cons.mp h).2)
      (fun b hb =>
        (List.pairwise_cons.mp h).1 b ((List.mem_insertionSort c).mp hb))

end LexStability

/-! ## Helper lemmas: the country grouper -/

theorem map_grouper_addToGroups (gs : List CountryGroup) (m : Mirror) :
    (addToGroups gs m).map (·.grouper) =
      if m.country_code ∈ gs.map (·.grouper) then gs.map (·.grouper)
      else gs.map (·.grouper) ++ [m.country_code] := by
  induction gs with
  | nil => simp [addToGroups]
  | cons g rest ih =>
    by_cases hg : g.grouper = m.country_code
    · simp [addToGroups, hg]
    · have hne : ¬ m.country_code = g.grouper := fun h => hg h.symm
      simp only [addToGroups, if_neg hg, List.map_cons, ih, List.mem_cons, hne, false_or]
      split <;> simp

/-- Update lemma: `addToGroups` is Python dict assignment: if the key is present (keys being
unique), the unique matching group's list is extended; otherwise a fresh group
is appended. -/
theorem addToGroups_eq (gs : List CountryGroup) (m : Mirror)
    (hnd : (gs.map (·.grouper)).Nodup) :
    addToGroups gs m =
      if m.country_code ∈ gs.map (·.grouper) then
        gs.map (fun g => if g.grouper = m.country_code then
          { g with list := g.list ++ [mkEntry m] } else g)
      else gs ++ [⟨m.country_code, m.country, [mkEntry m]⟩] := by
  induction gs with
  | nil => simp [addToGroups]
  | cons g rest ih =>
    rw [List.map_cons, List.nodup_cons] at hnd
    by_cases hg : g.grouper = m.country_code
    · have hmem : m.country_code ∈ (g :: rest).map (·.grouper) := by
        simp [hg.symm]
      rw [if_pos hmem]
      have hrest : rest.map (fun g' => if g'.grouper = m.country_code then
          { g' with list := g'.list ++ [mkEntry m] } else g') = rest := by
        have : ∀ g' ∈ rest, (if g'.grouper = m.country_code then
            { g' with list := g'.list ++ [mkEntry m] } else g') = id g' := by
          intro g' hg'
          have : g'.grouper ≠ m.country_code := by
            intro h
            exact hnd.1 (hg ▸ h ▸ List.mem_map_of_mem (·.grouper) hg')
          simp [this]
        rw [List.map_congr_left this, List.map_id]
      simp [addToGroups, hg, hrest]
    · have hne : ¬ m.country_code = g.grouper := fun h => hg h.symm
      simp only [addToGroups, if_neg hg, ih hnd.2, List.map_cons, List.mem_cons, hne, false_or]
      split <;> simp [hg]

theorem sortMirrorsByCountry_append_one (ms : List Mirror) (m : Mirror) :
    sortMirrorsByCountry (ms ++ [m]) = addToGroups (sortMirrorsByCountry ms) m := by
  simp [sortMirrorsByCountry, List.foldl_append]

/-- The groupers of the built groups, in order, are the country codes of the
input in first-occurrence order. -/
theorem map_grouper_sortMirrorsByCountry (ms : List Mirror) :
    (sortMirrorsByCountry ms).map (·.grouper) = firstOccurs (ms.map (·.country_code)) := by
  induction ms using List.reverseRecOn with
  | nil => rfl
  | append_singleton ms m ih =>
    rw [sortMirrorsByCountry_append_one, map_grouper_addToGroups, ih]
    simp only [firstOccurs, List.map_append, List.map_cons, List.map_nil, List.foldl_append,
      List.foldl_cons, List.foldl_nil]

theorem mem_firstOccurs_aux (l : List String) :
    ∀ acc c, (c ∈ l.foldl (fun acc c => if c ∈ acc then acc else acc ++ [c]) acc ↔
      c ∈ acc ∨ c ∈ l) := by
  induction l with
  | nil => simp
  | cons a l ih =>
    intro acc c
    rw [List.foldl_cons, ih]
    by_cases ha : a ∈ acc
    · rw [if_pos ha]
      constructor
      · rintro (h | h)
        · exact Or.inl h
        · exact Or.inr (List.mem_cons.mpr (Or.inr h))
      · rintro (h | h)
        · exact Or.inl h
        · rcases List.mem_cons.mp h with rfl | h'
          · exact Or.inl ha
          · exact Or.inr h'
    · rw [if_neg ha]
      simp only [List.mem_append, List.mem_singleton, List.mem_cons]
      tauto

theorem mem_firstOccurs {l : List String} {c : String} : c ∈ firstOccurs l ↔ c ∈ l := by
  rw [firstOccurs, mem_firstOccurs_aux]
  simp

/-- A group exists for a code iff some input mirror bears that code. -/
theorem mem_grouper_iff (ms : List Mirror) (c : String) :
    c ∈ (sortMirrorsByCountry ms).map (·.grouper) ↔ ∃ m ∈ ms, m.country_code = c := by
  rw [map_grouper_sortMirrorsByCountry, mem_firstOccurs]
  simp [List.mem_map, eq_comm]

/-- The groupers of the built groups are distinct: one group per country
code. -/
theorem nodup_grouper_sortMirrorsByCountry (ms : List Mirror) :
    ((sortMirrorsByCountry ms).map (·.grouper)).Nodup := by
  induction ms using List.reverseRecOn with
  | nil => exact List.nodup_nil
  | append_singleton ms m ih =>
    rw [sortMirrorsByCountry_append_one, map_grouper_addToGroups]
    split
    · exact ih
    · rename_i hnm
      refine List.nodup_append.mpr ⟨ih, List.nodup_singleton _, ?_⟩
      intro a ha hb
      rcases List.mem_singleton.mp hb with rfl
      exact hnm ha

/-- Each group was created, on first encounter of its code, from the first
mirror in iteration order bearing that code: its `grouper` and `grouper_name`
are that mirror's `country_code` and `country`. -/
theorem grouper_name_of_first (ms : List Mirror) :
    ∀ g ∈ sortMirrorsByCountry ms,
      ∃ m, ms.find? (fun x => x.country_code == g.grouper) = some m ∧
        g.grouper = m.country_code ∧ g.grouper_name = m.country := by
  induction ms using List.reverseRecOn with
  | nil => intro g hg; simp [sortMirrorsByCountry] at hg
  | append_singleton ms m₀ ih =>
    rw [sortMirrorsByCountry_append_one,
      addToGroups_eq _ _ (nodup_grouper_sortMirrorsByCountry ms)]
    split
    · rename_i hmem
      intro g' hg'
      rcases List.mem_map.mp hg' with ⟨g, hgmem, rfl⟩
      obtain ⟨m, hfind, hcode, hname⟩ := ih g hgmem
      have hgr : (if g.grouper = m₀.country_code then
          { g with list := g.list ++ [mkEntry m₀] } else g).grouper = g.grouper := by
        split <;> rfl
      have hgn : (if g.grouper = m₀.country_code then
          { g with list := g.list ++ [mkEntry m₀] } else g).grouper_name = g.grouper_name := by
        split <;> rfl
      refine ⟨m, ?_, ?_, ?_⟩
      · simp only [hgr, List.find?_append, hfind, Option.or_some]
      · rw [hgr, hcode]
      · rw [hgn, hname]
    · rename_i hnmem
      intro g' hg'
      rcases List.mem_append.mp hg' with hL | hR
      · obtain ⟨m, hfind, hcode, hname⟩ := ih g' hL
        exact ⟨m, by simp [List.find?_append, hfind], hcode, hname⟩
      · rcases List.mem_singleton.mp hR with rfl
        refine ⟨m₀, ?_, rfl, rfl⟩
        have hnone : ms.find? (fun x => x.country_code == m₀.country_code) = none := by
          rw [List.find?_eq_none]
          intro x hx hpx
          exact hnmem ((mem_grouper_iff ms m₀.country_code).mpr
            ⟨x, hx, by simpa using hpx⟩)
        simp [List.find?_append, hnone]

/-- Each group's list is exactly the (url, name) projection of the input
mirrors bearing the group's code, in iteration order. -/
theorem list_eq_filter_sortMirrorsByCountry (ms : List Mirror) :
    ∀ g ∈ sortMirrorsByCountry ms,
      g.list = (ms.filter (fun x => x.country_code == g.grouper)).map mkEntry := by
  induction ms using List.reverseRecOn with
  | nil => intro g hg; simp [sortMirrorsByCountry] at hg
  | append_singleton ms m₀ ih =>
    rw [sortMirrorsByCountry_append_one,
      addToGroups_eq _ _ (nodup_grouper_sortMirrorsByCountry ms)]
    split
    · rename_i hmem
      intro g' hg'
      rcases List.mem_map.mp hg' with ⟨g, hgmem, rfl⟩
      by_cases hq : g.grouper = m₀.country_code
      · have hc2 : m₀.country_code = g.grouper := hq.symm
        simp only [if_pos hq, List.filter_append]
        simp [← ih g hgmem, hc2]
      · have : ¬ m₀.country_code = g.grouper := fun h => hq h.symm
        simp only [if_neg hq, List.filter_append]
        simp [← ih g hgmem, this]
    · rename_i hnmem
      intro g' hg'
      rcases List.mem_append.mp hg' with hL | hR
      · have : ¬ m₀.country_code = g'.grouper := by
          intro h
          exact hnmem (h ▸ List.mem_map_of_mem (·.grouper) hL)
        simp [List.filter_append, ih g' hL, this]
      · rcases List.mem_singleton.mp hR with rfl
        have hnil : ms.filter (fun x => x.country_code == m₀.country_code) = [] := by
          rw [List.filter_eq_nil_iff]
          intro x hx hpx
          exact hnmem ((mem_grouper_iff ms m₀.country_code).mpr
            ⟨x, hx, by simpa using hpx⟩)
        simp [List.filter_append, hnil, mkEntry]

/-- Adding one mirror appends exactly one entry to the flattened group
lists (up to position). -/
theorem flatten_addToGroups (gs : List CountryGroup) (m : Mirror) :
    List.Perm ((addToGroups gs m).map (·.list)).flatten
      ((gs.map (·.list)).flatten ++ [mkEntry m]) := by
  induction gs with
  | nil => simp [addToGroups]
  | cons g rest ih =>
    by_cases hg : g.grouper = m.country_code
    · simp only [addToGroups, if_pos hg, List.map_cons, List.flatten_cons, List.append_assoc]
      exact List.Perm.append_left g.list (List.perm_append_comm)
    · simp only [addToGroups, if_neg hg, List.map_cons, List.flatten_cons]
      exact (List.Perm.append_left g.list ih).trans
        (List.Perm.of_eq (List.append_assoc _ _ _).symm)

/-- The grouper neither drops nor duplicates mirrors: the concatenation of all
group lists is a permutation of the entry projection of the input. -/
theorem flatten_sortMirrorsByCountry (ms : List Mirror) :
    List.Perm (((sortMirrorsByCountry ms).map (·.list)).flatten) (ms.map mkEntry) := by
  induction ms using List.reverseRecOn with
  | nil => exact List.Perm.refl _
  | append_singleton ms m ih =>
    rw [sortMirrorsByCountry_append_one]
    exact ((flatten_addToGroups _ m).trans (ih.append_right _)).trans
      (List.Perm.of_eq (by simp))

/-! ## Helper lemmas: the mirror loop -/

/-- Characterisation of the mirrors produced by the loop, when it does not
raise: exactly the `Mirror`s built from the included entries. -/
theorem mem_mirrorsOfEntries :
    ∀ {es : List MirrorEntry} {ms : List Mirror}, mirrorsOfEntries es = some ms →
      ∀ m : Mirror, (m ∈ ms ↔ ∃ e ∈ es, includedEntry e = true ∧ mirrorOfEntry e = some m)
  | [], ms, h, m => by
    simp only [mirrorsOfEntries, Option.some.injEq] at h
    subst h
    simp
  | e :: es, ms, h, m => by
    by_cases hin : includedEntry e
    · rw [mirrorsOfEntries, if_pos hin] at h
      cases hme : mirrorOfEntry e with
      | none => rw [hme] at h; exact absurd h (by simp)
      | some m₀ =>
        rw [hme] at h
        cases hms : mirrorsOfEntries es with
        | none => rw [hms] at h; exact absurd h (by simp)
        | some ms' =>
          rw [hms] at h
          simp only [Option.some.injEq] at h
          subst h
          have ih := mem_mirrorsOfEntries hms m
          constructor
          · intro hm
            rcases List.mem_cons.mp hm with rfl | hm'
            · exact ⟨e, List.mem_cons_self _ _, hin, hme⟩
            · obtain ⟨e', he', hi', hm'⟩ := ih.mp hm'
              exact ⟨e', List.mem_cons.mpr (Or.inr he'), hi', hm'⟩
          · rintro ⟨e', he', hi', hm'⟩
            rcases List.mem_cons.mp he' with rfl | he''
            · rw [hme] at hm'
              exact List.mem_cons.mpr (Or.inl (Option.some.inj hm').symm)
            · exact List.mem_cons.mpr (Or.inr (ih.mpr ⟨e', he'', hi', hm'⟩))
    · rw [mirrorsOfEntries, if_neg hin] at h
      have ih := mem_mirrorsOfEntries h m
      rw [ih]
      constructor
      · rintro ⟨e', he', hi', hm'⟩
        exact ⟨e', List.mem_cons.mpr (Or.inr he'), hi', hm'⟩
      · rintro ⟨e', he', hi', hm'⟩
        rcases List.mem_cons.mp he' with rfl | he''
        · exact absurd hi' (by simpa using hin)
        · exact ⟨e', he'', hi', hm'⟩

/-- The final mirror list is a permutation of the loop's output. -/
theorem sortMirrorList_perm (ms : List Mirror) : List.Perm (sortMirrorList ms) ms :=
  (List.perm_insertionSort mirrorCountryLe _).trans (List.perm_insertionSort mirrorNameLe ms)

/-- Unfolding of `retrieveMirrors` into loop and sort. -/
theorem retrieveMirrors_eq_some {doc : MirrorsDoc} {ms : List Mirror}
    (h : retrieveMirrors doc = some ms) :
    ∃ l, mirrorsOfEntries doc.urls = some l ∧ ms = sortMirrorList l := by
  rcases Option.map_eq_some'.mp h with ⟨l, hl, hs⟩
  exact ⟨l, hl, hs.symm⟩

/-- Included entries that the successful loop passed over yield a mirror in
the output. -/
theorem mirrorsOfEntries_complete :
    ∀ {es : List MirrorEntry} {ms : List Mirror}, mirrorsOfEntries es = some ms →
      ∀ e ∈ es, includedEntry e = true → ∃ m ∈ ms, mirrorOfEntry e = some m
  | [], _, _, e, he, _ => absurd he (List.not_mem_nil e)
  | e₀ :: es, ms, h, e, he, hi => by
    by_cases hin : includedEntry e₀
    · rw [mirrorsOfEntries, if_pos hin] at h
      cases hme : mirrorOfEntry e₀ with
      | none => rw [hme] at h; exact absurd h (by simp)
      | some m₀ =>
        rw [hme] at h
        cases hms : mirrorsOfEntries es with
        | none => rw [hms] at h; exact absurd h (by simp)
        | some ms' =>
          rw [hms] at h
          simp only [Option.some.injEq] at h
          subst h
          rcases List.mem_cons.mp he with rfl | he'
          · exact ⟨m₀, List.mem_cons_self _ _, hme⟩
          · obtain ⟨m, hm, hme'⟩ := mirrorsOfEntries_complete hms e he' hi
            exact ⟨m, List.mem_cons.mpr (Or.inr hm), hme'⟩
    · rw [mirrorsOfEntries, if_neg hin] at h
      rcases List.mem_cons.mp he with rfl | he'
      · exact absurd hi (by simpa using hin)
      · exact mirrorsOfEntries_complete h e he' hi

/-! ## Claims -/

/-- C1, counterexample: for the included entry with `details = "a/b/c/d"` the
mirror's display name is `"b"`, the index-1 element of the right-split-into-4
result `["a","b","c","d"]`, while the second-from-right segment of that result
is `"c"` — so the name is not the second-from-right segment. -/
theorem c1_counterexample :
    retrieveMirrors ⟨[⟨"http", true, true, "http://one/", "a/b/c/d", "AA", "Aland"⟩]⟩ =
      some [⟨"http://one/", "b", "AA", "Aland"⟩] ∧
    ((rsplitSlash3 "a/b/c/d").reverse)[1]? = some "c" ∧
    ("b" : String) ≠ "c" :=
  ⟨by decide, by decide, by decide⟩

/-- C1 (amended): every included mirror's display name is the index-1 element
of the result of right-splitting its entry's `details` on `'/'` into at most 4
parts (and the remaining `Mirror` fields are copied from the entry). -/
theorem c1_name_is_index1_of_rsplit (doc : MirrorsDoc) (ms : List Mirror)
    (h : retrieveMirrors doc = some ms) :
    ∀ m ∈ ms, ∃ e ∈ doc.urls, includedEntry e = true ∧
      (rsplitSlash3 e.details)[1]? = some m.name ∧
      m.url = e.url ∧ m.country_code = e.country_code ∧ m.country = e.country := by
  obtain ⟨l, hl, rfl⟩ := retrieveMirrors_eq_some h
  intro m hm
  obtain ⟨e, he, hi, hme⟩ :=
    (mem_mirrorsOfEntries hl m).mp ((sortMirrorList_perm l).mem_iff.mp hm)
  rcases Option.map_eq_some'.mp hme with ⟨n, hn, hmk⟩
  cases hmk
  exact ⟨e, he, hi, hn, rfl, rfl, rfl⟩

/-- C1, witness for the amended claim at a concrete document. -/
theorem c1_witness :
    retrieveMirrors ⟨[⟨"http", true, true, "u", "x/y/z", "AA", "X"⟩]⟩ =
      some [⟨"u", "y", "AA", "X"⟩] ∧
    (∀ m ∈ [(⟨"u", "y", "AA", "X"⟩ : Mirror)],
      ∃ e ∈ [(⟨"http", true, true, "u", "x/y/z", "AA", "X"⟩ : MirrorEntry)],
        includedEntry e = true ∧
        (rsplitSlash3 e.details)[1]? = some m.name ∧
        m.url = e.url ∧ m.country_code = e.country_code ∧ m.country = e.country) :=
  ⟨by decide, c1_name_is_index1_of_rsplit _ _ (by decide)⟩

/-- C2: the release-fetch operation returns exactly the `version` values of
the `available` entries of the document, in the order obtained by stably
sorting the whole release list by `release_date` descending and then
filtering; on the concrete two-entry document it returns
`["2024.01.01"]`. -/
theorem c2_available_versions_sorted_desc :
    (∀ doc : ReleasesDoc, ∃ l : List Release,
      List.Perm doc.releases l ∧
      l.Pairwise (fun a b : Release => strLe b.release_date a.release_date) ∧
      retrieveReleases doc = (l.filter (·.available)).map (·.version)) ∧
    (∀ doc : ReleasesDoc,
      List.Perm (retrieveReleases doc)
        ((doc.releases.filter (·.available)).map (·.version))) ∧
    retrieveReleases ⟨[⟨"2024.01.01", "2024-01-01", true⟩,
      ⟨"2023.01.01", "2023-01-01", false⟩]⟩ = ["2024.01.01"] := by
  refine ⟨?_, ?_, by decide⟩
  · intro doc
    exact ⟨doc.releases.insertionSort releaseDesc,
      (List.perm_insertionSort releaseDesc doc.releases).symm,
      List.sorted_insertionSort releaseDesc doc.releases, rfl⟩
  · intro doc
    exact ((List.perm_insertionSort releaseDesc doc.releases).filter _).map _

/-- C3: an entry of the `urls` array contributes a mirror iff its `protocol`
is `"http"` and `active` and `isos` hold; every produced mirror comes from
such an entry, every such entry produces a mirror, and the boolean filter is
exactly that conjunction.  An `"https"` entry is excluded even when `active`
and `isos` are true. -/
theorem c3_included_iff (doc : MirrorsDoc) (ms : List Mirror)
    (h : retrieveMirrors doc = some ms) :
    (∀ m ∈ ms, ∃ e ∈ doc.urls, includedEntry e = true ∧ mirrorOfEntry e = some m) ∧
    (∀ e ∈ doc.urls, includedEntry e = true → ∃ m ∈ ms, mirrorOfEntry e = some m) ∧
    (∀ e : MirrorEntry, includedEntry e = true ↔
      (e.protocol = "http" ∧ e.active = true ∧ e.isos = true)) ∧
    retrieveMirrors ⟨[⟨"https", true, true, "u", "a/b/c", "AA", "X"⟩]⟩ = some [] := by
  obtain ⟨l, hl, rfl⟩ := retrieveMirrors_eq_some h
  refine ⟨?_, ?_, ?_, by decide⟩
  · intro m hm
    exact (mem_mirrorsOfEntries hl m).mp ((sortMirrorList_perm l).mem_iff.mp hm)
  · intro e he hi
    obtain ⟨m, hm, hme⟩ := mirrorsOfEntries_complete hl e he hi
    exact ⟨m, (sortMirrorList_perm l).mem_iff.mpr hm, hme⟩
  · intro e
    simp [includedEntry, Bool.and_eq_true, beq_iff_eq, and_assoc]

/-- C3, witness at a concrete document. -/
theorem c3_witness :
    retrieveMirrors ⟨[⟨"http", true, true, "w", "p/q/r", "BB", "Y"⟩]⟩ =
      some [⟨"w", "q", "BB", "Y"⟩] ∧
    ((∀ m ∈ [(⟨"w", "q", "BB", "Y"⟩ : Mirror)],
        ∃ e ∈ [(⟨"http", true, true, "w", "p/q/r", "BB", "Y"⟩ : MirrorEntry)],
          includedEntry e = true ∧ mirrorOfEntry e = some m) ∧
      (∀ e ∈ [(⟨"http", true, true, "w", "p/q/r", "BB", "Y"⟩ : MirrorEntry)],
        includedEntry e = true → ∃ m ∈ [(⟨"w", "q", "BB", "Y"⟩ : Mirror)],
          mirrorOfEntry e = some m) ∧
      (∀ e : MirrorEntry, includedEntry e = true ↔
        (e.protocol = "http" ∧ e.active = true ∧ e.isos = true)) ∧
      retrieveMirrors ⟨[⟨"https", true, true, "u", "a/b/c", "AA", "X"⟩]⟩ = some []) :=
  ⟨by decide, c3_included_iff _ _ (by decide)⟩

/-- C4: the mirror-fetch result is the name-ascending stable sort followed by
the country-ascending stable sort of the loop's mirrors; it is a permutation
of them and is ordered primarily by `country` and secondarily by `name`. -/
theorem c4_sorted_country_then_name (doc : MirrorsDoc) (ms : List Mirror)
    (h : retrieveMirrors doc = some ms) :
    (∃ l, mirrorsOfEntries doc.urls = some l ∧
      ms = (l.insertionSort mirrorNameLe).insertionSort mirrorCountryLe ∧
      List.Perm ms l) ∧
    ms.Pairwise (fun a b => strLt a.country b.country ∨
      (a.country = b.country ∧ strLe a.name b.name)) := by
  obtain ⟨l, hl, rfl⟩ := retrieveMirrors_eq_some h
  refine ⟨⟨l, hl, rfl, sortMirrorList_perm l⟩, ?_⟩
  have hname : (l.insertionSort mirrorNameLe).Pairwise mirrorNameLe :=
    List.sorted_insertionSort mirrorNameLe l
  have hlex := pairwise_lex_insertionSort mirrorCountryLe mirrorNameLe
    (fun x y => strLe_total x.country y.country)
    (fun x y z hxy hyz => strLe_trans hxy hyz)
    (l.insertionSort mirrorNameLe) hname
  refine hlex.imp ?_
  rintro a b ⟨hc, him⟩
  by_cases heq : a.country = b.country
  · refine Or.inr ⟨heq, him ?_⟩
    show strLe b.country a.country
    rw [heq]
    exact strLe_refl _
  · exact Or.inl ⟨hc, heq⟩

/-- C4, witness at a concrete document: two mirrors in different countries,
sorted by country after the name sort. -/
theorem c4_witness :
    retrieveMirrors ⟨[⟨"http", true, true, "u2", "a/yy/c", "AA", "X"⟩,
        ⟨"http", true, true, "u1", "a/xx/c", "BB", "W"⟩]⟩ =
      some [⟨"u1", "xx", "BB", "W"⟩, ⟨"u2", "yy", "AA", "X"⟩] ∧
    ((∃ l, mirrorsOfEntries [(⟨"http", true, true, "u2", "a/yy/c", "AA", "X"⟩ : MirrorEntry),
        ⟨"http", true, true, "u1", "a/xx/c", "BB", "W"⟩] = some l ∧
      [(⟨"u1", "xx", "BB", "W"⟩ : Mirror), ⟨"u2", "yy", "AA", "X"⟩] =
        (l.insertionSort mirrorNameLe).insertionSort mirrorCountryLe ∧
      List.Perm [(⟨"u1", "xx", "BB", "W"⟩ : Mirror), ⟨"u2", "yy", "AA", "X"⟩] l) ∧
    ([(⟨"u1", "xx", "BB", "W"⟩ : Mirror), ⟨"u2", "yy", "AA", "X"⟩]).Pairwise
      (fun a b => strLt a.country b.country ∨
        (a.country = b.country ∧ strLe a.name b.name))) :=
  ⟨by decide, c4_sorted_country_then_name _ _ (by decide)⟩

/-- C5: the grouper maps the mirror sequence to country groups: the groups
appear in first-occurrence order of the country codes; each group's `grouper`
and `grouper_name` come from the first mirror in iteration order bearing its
code; each group's list is the `{url, name}` projection of the mirrors
bearing its code, in iteration order; and every mirror has a group. -/
theorem c5_grouper_behavior (ms : List Mirror) :
    ((sortMirrorsByCountry ms).map (·.grouper) = firstOccurs (ms.map (·.country_code))) ∧
    (∀ g ∈ sortMirrorsByCountry ms,
      ∃ m, ms.find? (fun x => x.country_code == g.grouper) = some m ∧
        g.grouper = m.country_code ∧ g.grouper_name = m.country) ∧
    (∀ g ∈ sortMirrorsByCountry ms,
      g.list = (ms.filter (fun x => x.country_code == g.grouper)).map mkEntry) ∧
    (∀ m ∈ ms, ∃ g ∈ sortMirrorsByCountry ms, g.grouper = m.country_code) := by
  refine ⟨map_grouper_sortMirrorsByCountry ms, grouper_name_of_first ms,
    list_eq_filter_sortMirrorsByCountry ms, ?_⟩
  intro m hm
  have hmem := (mem_grouper_iff ms m.country_code).mpr ⟨m, hm, rfl⟩
  rcases List.mem_map.mp hmem with ⟨g, hg, hgr⟩
  exact ⟨g, hg, hgr⟩

/-- C6, counterexample: two included mirrors share the country display name
`"Utopia"` but have different country codes, and the grouper splits them into
two distinct groups — mirrors sharing a country do not appear together in a
single group. -/
theorem c6_counterexample :
    (retrieveMirrors ⟨[⟨"http", true, true, "http://one/", "x/y/z", "AA", "Utopia"⟩,
        ⟨"http", true, true, "http://two/", "p/q/r", "BB", "Utopia"⟩]⟩).map
      sortMirrorsByCountry =
      some [⟨"BB", "Utopia", [⟨"http://two/", "q"⟩]⟩,
        ⟨"AA", "Utopia", [⟨"http://one/", "y"⟩]⟩] ∧
    (⟨"BB", "Utopia", [⟨"http://two/", "q"⟩]⟩ : CountryGroup).grouper_name =
      (⟨"AA", "Utopia", [⟨"http://one/", "y"⟩]⟩ : CountryGroup).grouper_name ∧
    (⟨"BB", "Utopia", [⟨"http://two/", "q"⟩]⟩ : CountryGroup) ≠
      ⟨"AA", "Utopia", [⟨"http://one/", "y"⟩]⟩ :=
  ⟨by decide, rfl, by decide⟩

/-- C6 (amended): in the grouped structure produced from the sorted mirror
sequence of any mirrors document, all mirrors sharing a country CODE appear
together in a single group (each mirror's code has exactly one group), and
the groups appear in first-occurrence order of the codes in that sorted
sequence. -/
theorem c6_grouped_by_country_code (doc : MirrorsDoc) (ms : List Mirror)
    (_h : retrieveMirrors doc = some ms) :
    (∀ m ∈ ms, ∃! g, g ∈ sortMirrorsByCountry ms ∧ g.grouper = m.country_code) ∧
    (sortMirrorsByCountry ms).map (·.grouper) = firstOccurs (ms.map (·.country_code)) := by
  refine ⟨?_, map_grouper_sortMirrorsByCountry ms⟩
  intro m hm
  have hmem := (mem_grouper_iff ms m.country_code).mpr ⟨m, hm, rfl⟩
  rcases List.mem_map.mp hmem with ⟨g, hg, hgr⟩
  refine ⟨g, ⟨hg, hgr⟩, ?_⟩
  rintro g' ⟨hg', hgr'⟩
  exact List.inj_on_of_nodup_map (nodup_grouper_sortMirrorsByCountry ms) hg' hg
    (by rw [hgr', hgr])

/-- C6, witness for the amended claim at a concrete document. -/
theorem c6_witness :
    retrieveMirrors ⟨[⟨"http", true, true, "v", "d/e/f", "CC", "Zed"⟩]⟩ =
      some [⟨"v", "e", "CC", "Zed"⟩] ∧
    ((∀ m ∈ [(⟨"v", "e", "CC", "Zed"⟩ : Mirror)],
        ∃! g, g ∈ sortMirrorsByCountry [(⟨"v", "e", "CC", "Zed"⟩ : Mirror)] ∧
          g.grouper = m.country_code) ∧
      (sortMirrorsByCountry [(⟨"v", "e", "CC", "Zed"⟩ : Mirror)]).map (·.grouper) =
        firstOccurs ([(⟨"v", "e", "CC", "Zed"⟩ : Mirror)].map (·.country_code))) :=
  ⟨by decide, c6_grouped_by_country_code ⟨[⟨"http", true, true, "v", "d/e/f", "CC", "Zed"⟩]⟩ _ (by decide)⟩

/-- C7: the run is a deterministic pure function of the two endpoint
responses, the template, and the render function: two runs over identical
inputs produce identical results, output and exit status. -/
theorem c7_deterministic (i₁ i₂ : RunInputs)
    (hr : i₁.releasesResult = i₂.releasesResult)
    (hm : i₁.mirrorsResult = i₂.mirrorsResult)
    (ht : i₁.templateResult = i₂.templateResult)
    (hd : i₁.renderResult = i₂.renderResult) :
    runMain i₁ = runMain i₂ ∧ stdoutOf i₁ = stdoutOf i₂ ∧ exitCodeOf i₁ = exitCodeOf i₂ := by
  obtain ⟨r₁, m₁, t₁, d₁⟩ := i₁
  obtain ⟨r₂, m₂, t₂, d₂⟩ := i₂
  cases hr
  cases hm
  cases ht
  cases hd
  exact ⟨rfl, rfl, rfl⟩

/-- C7, witness at a concrete run environment. -/
theorem c7_witness :
    ((⟨Except.ok ⟨[]⟩, Except.ok ⟨[]⟩, Except.ok ⟨"t"⟩,
        fun _ _ _ => Except.ok "out"⟩ : RunInputs).releasesResult =
      (⟨Except.ok ⟨[]⟩, Except.ok ⟨[]⟩, Except.ok ⟨"t"⟩,
        fun _ _ _ => Except.ok "out"⟩ : RunInputs).releasesResult) ∧
    (runMain ⟨Except.ok ⟨[]⟩, Except.ok ⟨[]⟩, Except.ok ⟨"t"⟩,
        fun _ _ _ => Except.ok "out"⟩ =
      runMain ⟨Except.ok ⟨[]⟩, Except.ok ⟨[]⟩, Except.ok ⟨"t"⟩,
        fun _ _ _ => Except.ok "out"⟩ ∧
      stdoutOf ⟨Except.ok ⟨[]⟩, Except.ok ⟨[]⟩, Except.ok ⟨"t"⟩,
        fun _ _ _ => Except.ok "out"⟩ =
      stdoutOf ⟨Except.ok ⟨[]⟩, Except.ok ⟨[]⟩, Except.ok ⟨"t"⟩,
        fun _ _ _ => Except.ok "out"⟩ ∧
      exitCodeOf ⟨Except.ok ⟨[]⟩, Except.ok ⟨[]⟩, Except.ok ⟨"t"⟩,
        fun _ _ _ => Except.ok "out"⟩ =
      exitCodeOf ⟨Except.ok ⟨[]⟩, Except.ok ⟨[]⟩, Except.ok ⟨"t"⟩,
        fun _ _ _ => Except.ok "out"⟩) :=
  ⟨rfl, c7_deterministic _ _ rfl rfl rfl rfl⟩

/-- C8: every failure (fetch, parse, `IndexError`, template load, render)
aborts the whole run with a non-zero exit status and nothing written to
standard output; in particular a missing template implies an aborted run and
an empty standard output. -/
theorem c8_failure_aborts_without_output (i : RunInputs) :
    ((∃ e, runMain i = Except.error e) → stdoutOf i = [] ∧ exitCodeOf i ≠ 0) ∧
    (∀ e, i.releasesResult = Except.error e → runMain i = Except.error e) ∧
    (∀ e, i.mirrorsResult = Except.error e → ∃ e', runMain i = Except.error e') ∧
    (∀ e, i.templateResult = Except.error e → ∃ e', runMain i = Except.error e') ∧
    (∀ e, i.templateResult = Except.error e →
      stdoutOf i = [] ∧ exitCodeOf i ≠ 0) := by
  have habort : (∃ e, runMain i = Except.error e) → stdoutOf i = [] ∧ exitCodeOf i ≠ 0 := by
    rintro ⟨e, he⟩
    simp [stdoutOf, exitCodeOf, he]
  have htmpl : ∀ e, i.templateResult = Except.error e →
      ∃ e', runMain i = Except.error e' := by
    intro e he
    cases hr : i.releasesResult with
    | error e₁ => exact ⟨e₁, by simp only [runMain, hr]⟩
    | ok rdoc =>
      cases hm : i.mirrorsResult with
      | error e₂ => exact ⟨e₂, by simp only [runMain, hr, hm]⟩
      | ok mdoc =>
        cases hms : retrieveMirrorsE mdoc with
        | error e₃ => exact ⟨e₃, by simp only [runMain, hr, hm, hms]⟩
        | ok ms => exact ⟨e, by simp only [runMain, hr, hm, hms, he]⟩
  refine ⟨habort, ?_, ?_, htmpl, fun e he => habort (htmpl e he)⟩
  · intro e he
    simp only [runMain, he]
  · intro e he
    cases hr : i.releasesResult with
    | error e₁ => exact ⟨e₁, by simp only [runMain, hr]⟩
    | ok rdoc => exact ⟨e, by simp only [runMain, hr, he]⟩

/-- C9: the grouper neither drops nor duplicates mirrors: the concatenation
of all group lists is a permutation of the entry projection of the input, so
the sum of the group list lengths is the length of the input. -/
theorem c9_sum_group_sizes (ms : List Mirror) :
    List.Perm (((sortMirrorsByCountry ms).map (·.list)).flatten) (ms.map mkEntry) ∧
    ((sortMirrorsByCountry ms).map (fun g => g.list.length)).sum = ms.length := by
  refine ⟨flatten_sortMirrorsByCountry ms, ?_⟩
  have h := (flatten_sortMirrorsByCountry ms).length_eq
  rw [List.length_flatten, List.map_map] at h
  simpa [Function.comp] using h

/-- C10: a mirror whose country code already has a group only extends that
group's list; every group's `grouper` and `grouper_name` are unchanged and no
group is added. -/
theorem c10_later_mirror_keeps_grouper_name (l : List Mirror) (m : Mirror)
    (h : ∃ m' ∈ l, m'.country_code = m.country_code) :
    sortMirrorsByCountry (l ++ [m]) =
      (sortMirrorsByCountry l).map (fun g =>
        if g.grouper = m.country_code then { g with list := g.list ++ [mkEntry m] }
        else g) ∧
    (sortMirrorsByCountry (l ++ [m])).map (fun g => (g.grouper, g.grouper_name)) =
      (sortMirrorsByCountry l).map (fun g => (g.grouper, g.grouper_name)) := by
  have hmem : m.country_code ∈ (sortMirrorsByCountry l).map (·.grouper) :=
    (mem_grouper_iff l m.country_code).mpr h
  have heq : sortMirrorsByCountry (l ++ [m]) =
      (sortMirrorsByCountry l).map (fun g =>
        if g.grouper = m.country_code then { g with list := g.list ++ [mkEntry m] }
        else g) := by
    rw [sortMirrorsByCountry_append_one,
      addToGroups_eq _ _ (nodup_grouper_sortMirrorsByCountry l), if_pos hmem]
  refine ⟨heq, ?_⟩
  rw [heq, List.map_map]
  refine List.map_congr_left ?_
  intro g _
  by_cases hg : g.grouper = m.country_code <;> simp [Function.comp, hg]

/-- C10, witness: a second mirror with the same code `"AA"` but a different
country display name is appended to the existing group, whose name stays
`"X"`. -/
theorem c10_witness :
    (∃ m' ∈ [(⟨"u", "a", "AA", "X"⟩ : Mirror)],
      m'.country_code = (⟨"v", "b", "AA", "Z"⟩ : Mirror).country_code) ∧
    (sortMirrorsByCountry ([(⟨"u", "a", "AA", "X"⟩ : Mirror)] ++ [⟨"v", "b", "AA", "Z"⟩]) =
      (sortMirrorsByCountry [(⟨"u", "a", "AA", "X"⟩ : Mirror)]).map (fun g =>
        if g.grouper = (⟨"v", "b", "AA", "Z"⟩ : Mirror).country_code then
          { g with list := g.list ++ [mkEntry ⟨"v", "b", "AA", "Z"⟩] }
        else g) ∧
    (sortMirrorsByCountry ([(⟨"u", "a", "AA", "X"⟩ : Mirror)] ++ [⟨"v", "b", "AA", "Z"⟩])).map
        (fun g => (g.grouper, g.grouper_name)) =
      (sortMirrorsByCountry [(⟨"u", "a", "AA", "X"⟩ : Mirror)]).map
        (fun g => (g.grouper, g.grouper_name))) :=
  ⟨by decide, c10_later_mirror_keeps_grouper_name _ _ (by decide)⟩

end ArchIpxe
